import Mathlib

/-!
Verification of the reduction kernels and method registry of
`xugrid/regrid/reduce.py`.

Embedding conventions:
* A floating-point cell value is `F := Option ℚ`: `none` is the NaN nodata
  sentinel, `some q` a finite value.  The claims under study are about
  nodata propagation and control flow, not rounding, so rationals stand in
  for binary floats; IEEE semantics of NaN in comparisons (`NaN < x`,
  `x < NaN`, `NaN == x` are all false) are reproduced by `ltF`, `gtF`, `eqF`.
* `values : List F`, `indices : List ℕ`, `weights : List ℚ`.
* Indexing `values[i]` is `List.get?`; an out-of-range access — a Python
  `IndexError` — makes the kernel return `none : Option F`.  A kernel that
  completes returns `some r` with `r : F` its float result (possibly NaN).
* Python's `zip` truncates to the shorter sequence, as `List.zip` does.
* `np.log`/`np.exp` have no exact rational counterpart; `geometric_mean`
  takes them as explicit function arguments, so every theorem about it
  quantifies over all interpretations of `log` and `exp`.
-/

/-- A float value: `none` is the NaN nodata sentinel. -/
abbrev F := Option ℚ

/-- The NaN nodata sentinel. -/
def nanF : F := none

/-- `np.isnan`. -/
def isnanF : F → Bool
  | none => true
  | some _ => false

/-- IEEE `<` : any comparison involving NaN is false. -/
def ltF : F → F → Bool
  | some x, some y => decide (x < y)
  | _, _ => false

/-- IEEE `>` : any comparison involving NaN is false. -/
def gtF : F → F → Bool
  | some x, some y => decide (y < x)
  | _, _ => false

/-- IEEE `==` : any comparison involving NaN is false. -/
def eqF : F → F → Bool
  | some x, some y => decide (x = y)
  | _, _ => false

namespace Reduce

/-! ### mean -/

/-- Loop of `mean`: accumulate `vsum += w*v`, `wsum += w` over non-nodata
indexed values; `none` models an IndexError. -/
def meanGo (values : List F) : List (ℕ × ℚ) → ℚ → ℚ → Option (ℚ × ℚ)
  | [], vsum, wsum => some (vsum, wsum)
  | (i, w) :: rest, vsum, wsum =>
    match values.get? i with
    | none => none
    | some v =>
      if isnanF v then meanGo values rest vsum wsum
      else meanGo values rest (vsum + w * (v.getD 0)) (wsum + w)

/-- `mean(values, indices, weights)` from the source. -/
def mean (values : List F) (indices : List ℕ) (weights : List ℚ) : Option F :=
  match meanGo values (indices.zip weights) 0 0 with
  | none => none
  | some (vsum, wsum) => some (if wsum = 0 then nanF else some (vsum / wsum))

/-! ### harmonic_mean -/

/-- Loop of `harmonic_mean`: skip nodata or zero values; for positive
weights accumulate `w_sum += w`, `v_agg += w / v`. -/
def harmonicGo (values : List F) : List (ℕ × ℚ) → ℚ → ℚ → Option (ℚ × ℚ)
  | [], v_agg, w_sum => some (v_agg, w_sum)
  | (i, w) :: rest, v_agg, w_sum =>
    match values.get? i with
    | none => none
    | some v =>
      if isnanF v || eqF v (some 0) then harmonicGo values rest v_agg w_sum
      else if 0 < w then harmonicGo values rest (v_agg + w / (v.getD 0)) (w_sum + w)
      else harmonicGo values rest v_agg w_sum

/-- `harmonic_mean(values, indices, weights)` from the source. -/
def harmonic_mean (values : List F) (indices : List ℕ) (weights : List ℚ) :
    Option F :=
  match harmonicGo values (indices.zip weights) 0 0 with
  | none => none
  | some (v_agg, w_sum) =>
    some (if v_agg = 0 ∨ w_sum = 0 then nanF else some (w_sum / v_agg))

/-! ### geometric_mean -/

/-- Second loop of `geometric_mean`: for non-nodata, non-zero values with
positive weight accumulate `v_agg += w * log |v|`, `w_sum += w`, and count
sign flips `m` for negative values. -/
def geoGo (log : ℚ → ℚ) (values : List F) :
    List (ℕ × ℚ) → ℚ → ℚ → ℕ → Option (ℚ × ℚ × ℕ)
  | [], v_agg, w_sum, m => some (v_agg, w_sum, m)
  | (i, w) :: rest, v_agg, w_sum, m =>
    match values.get? i with
    | none => none
    | some v =>
      if isnanF v || eqF v (some 0) then geoGo log values rest v_agg w_sum m
      else if 0 < w then
        geoGo log values rest (v_agg + w * log |v.getD 0|) (w_sum + w)
          (if v.getD 0 < 0 then m + 1 else m)
      else geoGo log values rest v_agg w_sum m

/-- `geometric_mean(values, indices, weights)` from the source;
`log` and `exp` stand for `np.log` and `np.exp`. -/
def geometric_mean (log exp : ℚ → ℚ) (values : List F) (indices : List ℕ)
    (weights : List ℚ) : Option F :=
  let normsum := ((indices.zip weights).map Prod.snd).sum
  if normsum = 0 then some nanF
  else
    match geoGo log values (indices.zip weights) 0 0 0 with
    | none => none
    | some (v_agg, w_sum, m) =>
      some (if w_sum = 0 then nanF
            else some ((-1 : ℚ) ^ m * exp ((1 / w_sum) * v_agg)))

/-! ### sum -/

/-- Loop of `sum`: accumulate the unweighted `v_sum += v` and the gating
`w_sum += w` over non-nodata indexed values. -/
def sumGo (values : List F) : List (ℕ × ℚ) → ℚ → ℚ → Option (ℚ × ℚ)
  | [], v_sum, w_sum => some (v_sum, w_sum)
  | (i, w) :: rest, v_sum, w_sum =>
    match values.get? i with
    | none => none
    | some v =>
      if isnanF v then sumGo values rest v_sum w_sum
      else sumGo values rest (v_sum + v.getD 0) (w_sum + w)

/-- `sum(values, indices, weights)` from the source. -/
def sum (values : List F) (indices : List ℕ) (weights : List ℚ) : Option F :=
  match sumGo values (indices.zip weights) 0 0 with
  | none => none
  | some (v_sum, w_sum) => some (if w_sum = 0 then nanF else some v_sum)

/-! ### minimum / maximum -/

/-- Loop of `minimum`: `if v < vmin: vmin = v`, skipping nodata values;
a NaN running minimum is never replaced since `ltF _ none = false`. -/
def minimumGo (values : List F) : List ℕ → F → Option F
  | [], vmin => some vmin
  | i :: rest, vmin =>
    match values.get? i with
    | none => none
    | some v =>
      if isnanF v then minimumGo values rest vmin
      else if ltF v vmin then minimumGo values rest v
      else minimumGo values rest vmin

/-- `minimum(values, indices, weights)` from the source: seeds the running
minimum from `values[indices[0]]` (an IndexError when `indices` is empty). -/
def minimum (values : List F) (indices : List ℕ) (weights : List ℚ) :
    Option F :=
  match indices with
  | [] => none
  | i0 :: _ =>
    match values.get? i0 with
    | none => none
    | some v0 => minimumGo values indices v0

/-- Loop of `maximum`: `if v > vmax: vmax = v`, skipping nodata values. -/
def maximumGo (values : List F) : List ℕ → F → Option F
  | [], vmax => some vmax
  | i :: rest, vmax =>
    match values.get? i with
    | none => none
    | some v =>
      if isnanF v then maximumGo values rest vmax
      else if gtF v vmax then maximumGo values rest v
      else maximumGo values rest vmax

/-- `maximum(values, indices, weights)` from the source. -/
def maximum (values : List F) (indices : List ℕ) (weights : List ℚ) :
    Option F :=
  match indices with
  | [] => none
  | i0 :: _ =>
    match values.get? i0 with
    | some v0 => maximumGo values indices v0
    | none => none

/-! ### mode

The source iterates `enumerate(zip(indices, weights))` while writing
`weights[j] += w` only at positions `j` strictly below the current
enumerate counter, so the pairs the iterator yields are those of the
original `weights`; the updated buffer is threaded separately.  The loop
variable `v` is assigned on every iteration before the `isnan` check and
survives the loop, seeding the final scan. -/

/-- Inner scan of `mode` at enumerate counter `k`: walk `j = pos, pos+1, …`
for `k` steps; at the first `j` with `values[j] == v` (note: `values[j]`,
not `values[indices[j]]`) do `weights[j] += w` and stop. -/
def mergeScan (values : List F) (v : F) (w : ℚ) :
    ℕ → ℕ → List ℚ → Option (List ℚ)
  | 0, _, ws => some ws
  | k + 1, j, ws =>
    match values.get? j with
    | none => none
    | some vj =>
      if eqF vj v then
        match ws.get? j with
        | none => none
        | some wj => some (ws.set j (wj + w))
      else mergeScan values v w k (j + 1) ws

/-- Main loop of `mode`: `k` is the enumerate counter, `w_sum` the count of
non-nodata entries, `ws` the (mutated) weights buffer, `lastV` the loop
variable `v` (assigned before the `isnan` check on every iteration). -/
def modeLoop (values : List F) :
    List (ℕ × ℚ) → ℕ → ℕ → List ℚ → F → Option (ℕ × List ℚ × F)
  | [], _, w_sum, ws, lastV => some (w_sum, ws, lastV)
  | (i, w) :: rest, k, w_sum, ws, lastV =>
    match values.get? i with
    | none => none
    | some v =>
      if isnanF v then modeLoop values rest (k + 1) w_sum ws v
      else
        match mergeScan values v w k 0 ws with
        | none => none
        | some ws2 => modeLoop values rest (k + 1) (w_sum + 1) ws2 v
  termination_by structural pairs => pairs

/-- Final scan of `mode`: over `i = pos, …` for `n` steps, adopt
`values[i]` (note: not `values[indices[i]]`, and with no nodata check)
whenever `weights[i]` strictly exceeds the running maximum. -/
def modeSelect (values : List F) (ws : List ℚ) :
    ℕ → ℕ → ℚ → F → Option F
  | 0, _, _, v => some v
  | n + 1, i, w_max, v =>
    match ws.get? i with
    | none => none
    | some w =>
      if w_max < w then
        match values.get? i with
        | none => none
        | some v2 => modeSelect values ws n (i + 1) w v2
      else modeSelect values ws n (i + 1) w_max v

/-- `mode(values, indices, weights)` from the source, returning the result
together with the final state of the (destructively reused) weights
buffer. -/
def modeFull (values : List F) (indices : List ℕ) (weights : List ℚ) :
    Option (F × List ℚ) :=
  match modeLoop values (indices.zip weights) 0 0 weights nanF with
  | none => none
  | some (w_sum, ws, lastV) =>
    if w_sum = 0 then some (nanF, ws)
    else
      match modeSelect values ws indices.length 0 0 lastV with
      | none => none
      | some v => some (v, ws)

/-- The scalar result of `mode`. -/
def mode (values : List F) (indices : List ℕ) (weights : List ℚ) :
    Option F :=
  (modeFull values indices weights).map Prod.fst

/-! ### median -/

/-- Numpy fancy indexing `values[indices]`: gathers, raising on any
out-of-range index. -/
def gather (values : List F) : List ℕ → Option (List F)
  | [] => some []
  | i :: rest =>
    match values.get? i, gather values rest with
    | some v, some vs => some (v :: vs)
    | _, _ => none

/-- Insertion into a sorted rational list. -/
def insertQ (x : ℚ) : List ℚ → List ℚ
  | [] => [x]
  | y :: ys => if x ≤ y then x :: y :: ys else y :: insertQ x ys

/-- Insertion sort for rationals. -/
def sortQ : List ℚ → List ℚ
  | [] => []
  | x :: xs => insertQ x (sortQ xs)

/-- `np.nanpercentile(·, 50)`: drop NaNs; NaN on an empty remainder; else
the linearly interpolated median of the sorted data. -/
def nanpercentile50 (xs : List F) : F :=
  let ys := sortQ (xs.filterMap id)
  let n := ys.length
  if n = 0 then nanF
  else if n % 2 = 1 then some (ys.getD (n / 2) 0)
  else some ((ys.getD (n / 2 - 1) 0 + ys.getD (n / 2) 0) / 2)

/-- `median(values, indices, weights)` from the source:
`np.nanpercentile(values[indices], 50)`. -/
def median (values : List F) (indices : List ℕ) (weights : List ℚ) :
    Option F :=
  match gather values indices with
  | none => none
  | some vs => some (nanpercentile50 vs)

/-! ### conductance -/

/-- Loop of `conductance`: accumulate `v_agg += v*w`, `w_sum += w` over
non-nodata indexed values. -/
def conductanceGo (values : List F) : List (ℕ × ℚ) → ℚ → ℚ → Option (ℚ × ℚ)
  | [], v_agg, w_sum => some (v_agg, w_sum)
  | (i, w) :: rest, v_agg, w_sum =>
    match values.get? i with
    | none => none
    | some v =>
      if isnanF v then conductanceGo values rest v_agg w_sum
      else conductanceGo values rest (v_agg + (v.getD 0) * w) (w_sum + w)

/-- `conductance(values, indices, weights)` from the source: a weighted sum
not divided by the weight total. -/
def conductance (values : List F) (indices : List ℕ) (weights : List ℚ) :
    Option F :=
  match conductanceGo values (indices.zip weights) 0 0 with
  | none => none
  | some (v_agg, w_sum) => some (if w_sum = 0 then nanF else some v_agg)

/-! ### max_overlap -/

/-- Loop of `max_overlap`: when `w > max_w` the bar `max_w` is raised
first, and only then is `values[i]` inspected; a nodata value leaves the
running choice unchanged but the raised bar stands. -/
def maxOverlapGo (values : List F) : List (ℕ × ℚ) → ℚ → F → Option F
  | [], _, v => some v
  | (i, w) :: rest, max_w, v =>
    if max_w < w then
      match values.get? i with
      | none => none
      | some v_temp =>
        if isnanF v_temp then maxOverlapGo values rest w v
        else maxOverlapGo values rest w v_temp
    else maxOverlapGo values rest max_w v

/-- `max_overlap(values, indices, weights)` from the source. -/
def max_overlap (values : List F) (indices : List ℕ) (weights : List ℚ) :
    Option F :=
  maxOverlapGo values (indices.zip weights) 0 nanF

end Reduce

/-! ### Method registry and resolver -/

/-- Tags naming the ten registered kernels. -/
inductive KName
  | mean | harmonic_mean | geometric_mean | sum | minimum | maximum
  | mode | median | conductance | max_overlap
  deriving DecidableEq

/-- The `method` argument of `get_method`: a string, a callable, or
anything else. -/
inductive MethodArg (κ : Type)
  | str (s : String)
  | callable (k : κ)
  | other

/-- The two Python exceptions `get_method` can raise, with their
messages. -/
inductive RError
  | valueError (msg : String)
  | typeError (msg : String)
  deriving DecidableEq

/-- Dictionary lookup `methods[method]` on an association list. -/
def lookupEntry {κ : Type} (s : String) :
    List (String × κ × Bool) → Option (κ × Bool)
  | [] => none
  | (n, e) :: rest => if n = s then some e else lookupEntry s rest

/-- The apostrophe character, kept out of string literals. -/
def quoteChar : Char := Char.ofNat 39

/-- Python `str(dict.keys())`: `dict_keys([…])` with quoted names. -/
def keysRepr (names : List String) : String :=
  "dict_keys([" ++
    String.intercalate ", "
      (names.map fun n =>
        String.singleton quoteChar ++ n ++ String.singleton quoteChar) ++
    "])"

/-- The `ValueError` message built by `get_method`:
`"Invalid regridding method. Available methods are: {}".format(methods.keys())`.
Note that the format string has no placeholder for the requested name. -/
def invalidMethodMsg (names : List String) : String :=
  "Invalid regridding method. Available methods are: " ++ keysRepr names

/-- `get_method(method, methods, relative)` from the source. -/
def get_method {κ : Type} (method : MethodArg κ)
    (methods : List (String × κ × Bool)) (relative : Bool) :
    Except RError (κ × Bool) :=
  match method with
  | .str s =>
    match lookupEntry s methods with
    | some (m, rel) => .ok (m, rel)
    | none => .error (.valueError (invalidMethodMsg (methods.map Prod.fst)))
  | .callable k => .ok (k, relative)
  | .other => .error (.typeError "method must be a string or callable")

/-- The `OVERLAP_METHODS` registry from the source. -/
def OVERLAP_METHODS : List (String × KName × Bool) :=
  [("mean", KName.mean, false),
   ("harmonic_mean", KName.harmonic_mean, false),
   ("geometric_mean", KName.geometric_mean, false),
   ("sum", KName.sum, false),
   ("minimum", KName.minimum, false),
   ("maximum", KName.maximum, false),
   ("mode", KName.mode, false),
   ("median", KName.median, false),
   ("conductance", KName.conductance, true),
   ("max_overlap", KName.max_overlap, false)]

/-- Substring test on character lists (used to ask whether a name occurs
in an error message). -/
def containsSub (needle : List Char) : List Char → Bool
  | [] => needle.isEmpty
  | c :: rest => needle.isPrefixOf (c :: rest) || containsSub needle rest

/-! ### Kernel calls as state transformers

The Python kernels receive three mutable array arguments.  To state frame
properties, each kernel is wrapped as a function from the triple of
buffers to (result, buffers after the call).  Only `mode` contains a store
instruction (`weights[j] += w`); its wrapper threads the buffer returned
by `modeFull`, every other kernel's wrapper returns the buffers as
received, which is exactly what the store-free source bodies do. -/

/-- The three caller-supplied buffers of a kernel call. -/
structure KState where
  values : List F
  indices : List ℕ
  weights : List ℚ
  deriving DecidableEq

/-- `mean` as a state transformer. -/
def meanK (s : KState) : Option F × KState :=
  (Reduce.mean s.values s.indices s.weights, s)

/-- `harmonic_mean` as a state transformer. -/
def harmonicMeanK (s : KState) : Option F × KState :=
  (Reduce.harmonic_mean s.values s.indices s.weights, s)

/-- `geometric_mean` as a state transformer. -/
def geometricMeanK (log exp : ℚ → ℚ) (s : KState) : Option F × KState :=
  (Reduce.geometric_mean log exp s.values s.indices s.weights, s)

/-- `sum` as a state transformer. -/
def sumK (s : KState) : Option F × KState :=
  (Reduce.sum s.values s.indices s.weights, s)

/-- `minimum` as a state transformer. -/
def minimumK (s : KState) : Option F × KState :=
  (Reduce.minimum s.values s.indices s.weights, s)

/-- `maximum` as a state transformer. -/
def maximumK (s : KState) : Option F × KState :=
  (Reduce.maximum s.values s.indices s.weights, s)

/-- `mode` as a state transformer: the weights buffer after the call is
the one `modeFull` threads through its merge loop. -/
def modeK (s : KState) : Option F × KState :=
  match Reduce.modeFull s.values s.indices s.weights with
  | none => (none, ⟨s.values, s.indices, s.weights⟩)
  | some (v, ws) => (some v, ⟨s.values, s.indices, ws⟩)

/-- `median` as a state transformer (numpy fancy indexing copies, so the
buffers are untouched). -/
def medianK (s : KState) : Option F × KState :=
  (Reduce.median s.values s.indices s.weights, s)

/-- `conductance` as a state transformer. -/
def conductanceK (s : KState) : Option F × KState :=
  (Reduce.conductance s.values s.indices s.weights, s)

/-- `max_overlap` as a state transformer. -/
def maxOverlapK (s : KState) : Option F × KState :=
  (Reduce.max_overlap s.values s.indices s.weights, s)



/-! ### Specification-side reading of `sum` -/

/-- The contributing (value, weight) pairs of a slice: the entries whose
indexed value is not nodata. -/
def contribs (values : List F) (pairs : List (ℕ × ℚ)) : List (ℚ × ℚ) :=
  pairs.filterMap fun p =>
    match values.get? p.1 with
    | some (some x) => some (x, p.2)
    | _ => none

/-- `sum` as the spec words it: the unweighted total of the non-nodata
indexed values, nodata exactly when the accumulated weight total (over the
same contributing entries) is zero.  Stated from the spec, to be compared
with `Reduce.sum` from the source. -/
def sumSpec (values : List F) (indices : List ℕ) (weights : List ℚ) : F :=
  let cs := contribs values (indices.zip weights)
  if (cs.map Prod.snd).sum = 0 then nanF else some (cs.map Prod.fst).sum

/-- The value the mode loop's variable `v` holds after iterating over
`pairs` starting from `lv`: the last indexed value (assigned on every
iteration, before the `isnan` check), or `lv` when `pairs` is empty. -/
def lastIndexed (values : List F) (lv : F) : List (ℕ × ℚ) → F
  | [] => lv
  | (i, _) :: rest => lastIndexed values ((values.get? i).getD nanF) rest

/-! ## Helper lemmas -/

/-- `meanGo` skips every entry whose indexed value is nodata. -/
theorem meanGo_nodata (values : List F) : ∀ (pairs : List (ℕ × ℚ)) (a b : ℚ),
    (∀ p ∈ pairs, values.get? p.1 = some nanF) →
    Reduce.meanGo values pairs a b = some (a, b) := by
  intro pairs
  induction pairs with
  | nil => intro a b _; rfl
  | cons p rest ih =>
    intro a b h
    obtain ⟨i, w⟩ := p
    have hi := h (i, w) (List.mem_cons_self _ _)
    simp only [Reduce.meanGo, hi]
    exact ih a b (fun q hq => h q (List.mem_cons_of_mem _ hq))

/-- `harmonicGo` skips every entry whose indexed value is nodata. -/
theorem harmonicGo_nodata (values : List F) :
    ∀ (pairs : List (ℕ × ℚ)) (a b : ℚ),
    (∀ p ∈ pairs, values.get? p.1 = some nanF) →
    Reduce.harmonicGo values pairs a b = some (a, b) := by
  intro pairs
  induction pairs with
  | nil => intro a b _; rfl
  | cons p rest ih =>
    intro a b h
    obtain ⟨i, w⟩ := p
    have hi := h (i, w) (List.mem_cons_self _ _)
    simp only [Reduce.harmonicGo, hi, isnanF, Bool.true_or, if_true]
    exact ih a b (fun q hq => h q (List.mem_cons_of_mem _ hq))

/-- `geoGo` skips every entry whose indexed value is nodata. -/
theorem geoGo_nodata (log : ℚ → ℚ) (values : List F) :
    ∀ (pairs : List (ℕ × ℚ)) (a b : ℚ) (m : ℕ),
    (∀ p ∈ pairs, values.get? p.1 = some nanF) →
    Reduce.geoGo log values pairs a b m = some (a, b, m) := by
  intro pairs
  induction pairs with
  | nil => intro a b m _; rfl
  | cons p rest ih =>
    intro a b m h
    obtain ⟨i, w⟩ := p
    have hi := h (i, w) (List.mem_cons_self _ _)
    simp only [Reduce.geoGo, hi, isnanF, Bool.true_or, if_true]
    exact ih a b m (fun q hq => h q (List.mem_cons_of_mem _ hq))

/-- `sumGo` skips every entry whose indexed value is nodata. -/
theorem sumGo_nodata (values : List F) : ∀ (pairs : List (ℕ × ℚ)) (a b : ℚ),
    (∀ p ∈ pairs, values.get? p.1 = some nanF) →
    Reduce.sumGo values pairs a b = some (a, b) := by
  intro pairs
  induction pairs with
  | nil => intro a b _; rfl
  | cons p rest ih =>
    intro a b h
    obtain ⟨i, w⟩ := p
    have hi := h (i, w) (List.mem_cons_self _ _)
    simp only [Reduce.sumGo, hi]
    exact ih a b (fun q hq => h q (List.mem_cons_of_mem _ hq))

/-- `conductanceGo` skips every entry whose indexed value is nodata. -/
theorem conductanceGo_nodata (values : List F) :
    ∀ (pairs : List (ℕ × ℚ)) (a b : ℚ),
    (∀ p ∈ pairs, values.get? p.1 = some nanF) →
    Reduce.conductanceGo values pairs a b = some (a, b) := by
  intro pairs
  induction pairs with
  | nil => intro a b _; rfl
  | cons p rest ih =>
    intro a b h
    obtain ⟨i, w⟩ := p
    have hi := h (i, w) (List.mem_cons_self _ _)
    simp only [Reduce.conductanceGo, hi]
    exact ih a b (fun q hq => h q (List.mem_cons_of_mem _ hq))

/-- `minimumGo` keeps its running value when every indexed value is
nodata. -/
theorem minimumGo_nodata (values : List F) : ∀ (l : List ℕ) (vmin : F),
    (∀ i ∈ l, values.get? i = some nanF) →
    Reduce.minimumGo values l vmin = some vmin := by
  intro l
  induction l with
  | nil => intro vmin _; rfl
  | cons i rest ih =>
    intro vmin h
    have hi := h i (List.mem_cons_self _ _)
    simp only [Reduce.minimumGo, hi]
    exact ih vmin (fun j hj => h j (List.mem_cons_of_mem _ hj))

/-- `maximumGo` keeps its running value when every indexed value is
nodata. -/
theorem maximumGo_nodata (values : List F) : ∀ (l : List ℕ) (vmax : F),
    (∀ i ∈ l, values.get? i = some nanF) →
    Reduce.maximumGo values l vmax = some vmax := by
  intro l
  induction l with
  | nil => intro vmax _; rfl
  | cons i rest ih =>
    intro vmax h
    have hi := h i (List.mem_cons_self _ _)
    simp only [Reduce.maximumGo, hi]
    exact ih vmax (fun j hj => h j (List.mem_cons_of_mem _ hj))

/-- `modeLoop` counts nothing and leaves the buffer alone when every
indexed value is nodata. -/
theorem modeLoop_nodata (values : List F) :
    ∀ (pairs : List (ℕ × ℚ)) (k n : ℕ) (ws : List ℚ) (lv : F),
    (∀ p ∈ pairs, values.get? p.1 = some nanF) →
    ∃ lv2, Reduce.modeLoop values pairs k n ws lv = some (n, ws, lv2) := by
  intro pairs
  induction pairs with
  | nil => intro k n ws lv _; exact ⟨lv, rfl⟩
  | cons p rest ih =>
    intro k n ws lv h
    obtain ⟨i, w⟩ := p
    have hi := h (i, w) (List.mem_cons_self _ _)
    simp only [Reduce.modeLoop, hi]
    exact ih (k + 1) n ws nanF (fun q hq => h q (List.mem_cons_of_mem _ hq))

/-- `gather` returns an all-nodata list when every indexed value is
nodata. -/
theorem gather_nodata (values : List F) : ∀ (l : List ℕ),
    (∀ i ∈ l, values.get? i = some nanF) →
    ∃ vs, Reduce.gather values l = some vs ∧ ∀ v ∈ vs, v = nanF := by
  intro l
  induction l with
  | nil => intro _; exact ⟨[], rfl, by simp⟩
  | cons i rest ih =>
    intro h
    have hi := h i (List.mem_cons_self _ _)
    obtain ⟨vs, hvs, hall⟩ := ih (fun j hj => h j (List.mem_cons_of_mem _ hj))
    refine ⟨nanF :: vs, ?_, ?_⟩
    · simp only [Reduce.gather, hi, hvs]
    · intro v hv
      rcases List.mem_cons.mp hv with h1 | h2
      · exact h1
      · exact hall v h2

/-- A list of nodata values filters to nothing. -/
theorem filterMap_id_nodata : ∀ (vs : List F), (∀ v ∈ vs, v = nanF) →
    vs.filterMap id = [] := by
  intro vs
  induction vs with
  | nil => intro _; rfl
  | cons v rest ih =>
    intro h
    have hv := h v (List.mem_cons_self _ _)
    subst hv
    simp only [List.filterMap_cons, id, nanF]
    exact ih (fun u hu => h u (List.mem_cons_of_mem _ hu))

/-- `maxOverlapGo` never adopts a value when every indexed value is
nodata (the bar may rise, the choice never changes). -/
theorem maxOverlapGo_nodata (values : List F) :
    ∀ (pairs : List (ℕ × ℚ)) (mw : ℚ) (v : F),
    (∀ p ∈ pairs, values.get? p.1 = some nanF) →
    Reduce.maxOverlapGo values pairs mw v = some v := by
  intro pairs
  induction pairs with
  | nil => intro mw v _; rfl
  | cons p rest ih =>
    intro mw v h
    obtain ⟨i, w⟩ := p
    have hi := h (i, w) (List.mem_cons_self _ _)
    have hrest : ∀ q ∈ rest, values.get? q.1 = some nanF :=
      fun q hq => h q (List.mem_cons_of_mem _ hq)
    simp only [Reduce.maxOverlapGo, hi]
    by_cases hw : mw < w
    · simp only [if_pos hw, isnanF, if_true]
      exact ih w v hrest
    · simp only [if_neg hw]
      exact ih mw v hrest

/-- Members of a zip's first components are members of the first list. -/
theorem zip_fst_mem {α β : Type} (l1 : List α) (l2 : List β) :
    ∀ p ∈ l1.zip l2, p.1 ∈ l1 := by
  intro p hp
  exact (List.of_mem_zip hp).1

/-- A NaN running minimum is never replaced: both the `isnan` skip and the
always-false comparison `v < NaN` leave it in place. -/
theorem minimumGo_nan_seed (values : List F) : ∀ (l : List ℕ),
    (∀ i ∈ l, (values.get? i).isSome) →
    Reduce.minimumGo values l nanF = some nanF := by
  intro l
  induction l with
  | nil => intro _; rfl
  | cons i rest ih =>
    intro h
    obtain ⟨v, hv⟩ := Option.isSome_iff_exists.mp (h i (List.mem_cons_self _ _))
    have hrest := ih (fun j hj => h j (List.mem_cons_of_mem _ hj))
    simp only [Reduce.minimumGo, hv]
    cases v with
    | none => simpa [isnanF] using hrest
    | some x => simpa [isnanF, ltF, nanF] using hrest

/-- `minimum` on a nonempty all-nodata slice returns the nodata
sentinel. -/
theorem minimum_all_nodata (values : List F) (indices : List ℕ)
    (weights : List ℚ) (hne : indices ≠ [])
    (h : ∀ i ∈ indices, values.get? i = some nanF) :
    Reduce.minimum values indices weights = some nanF := by
  match indices, hne with
  | i0 :: rest, _ =>
    have h0 : values.get? i0 = some nanF := h i0 (List.mem_cons_self _ _)
    rw [Reduce.minimum]
    simp only [h0]
    exact minimumGo_nodata values (i0 :: rest) nanF h

/-- `maximum` on a nonempty all-nodata slice returns the nodata
sentinel. -/
theorem maximum_all_nodata (values : List F) (indices : List ℕ)
    (weights : List ℚ) (hne : indices ≠ [])
    (h : ∀ i ∈ indices, values.get? i = some nanF) :
    Reduce.maximum values indices weights = some nanF := by
  match indices, hne with
  | i0 :: rest, _ =>
    have h0 : values.get? i0 = some nanF := h i0 (List.mem_cons_self _ _)
    rw [Reduce.maximum]
    simp only [h0]
    exact maximumGo_nodata values (i0 :: rest) nanF h

/-- Once the bar `max_w` is at least every remaining weight, the
`max_overlap` loop adopts nothing further. -/
theorem maxOverlapGo_stuck (values : List F) :
    ∀ (pairs : List (ℕ × ℚ)) (mw : ℚ) (v : F),
    (∀ p ∈ pairs, p.2 ≤ mw) →
    Reduce.maxOverlapGo values pairs mw v = some v := by
  intro pairs
  induction pairs with
  | nil => intro mw v _; rfl
  | cons p rest ih =>
    intro mw v h
    obtain ⟨i, w⟩ := p
    have hw : ¬ mw < w := not_lt.mpr (h (i, w) (List.mem_cons_self _ _))
    simp only [Reduce.maxOverlapGo, if_neg hw]
    exact ih mw v (fun q hq => h q (List.mem_cons_of_mem _ hq))

/-- The loop of `sum` computes the unweighted value total and the weight
total of the contributing entries, shifted by its accumulators. -/
theorem sumGo_spec (values : List F) : ∀ (pairs : List (ℕ × ℚ)) (a b : ℚ),
    (∀ p ∈ pairs, (values.get? p.1).isSome) →
    Reduce.sumGo values pairs a b =
      some (a + ((contribs values pairs).map Prod.fst).sum,
            b + ((contribs values pairs).map Prod.snd).sum) := by
  intro pairs
  induction pairs with
  | nil => intro a b _; simp [Reduce.sumGo, contribs]
  | cons p rest ih =>
    intro a b h
    obtain ⟨i, w⟩ := p
    obtain ⟨v, hv⟩ :=
      Option.isSome_iff_exists.mp (h (i, w) (List.mem_cons_self _ _))
    rw [List.get?_eq_getElem?] at hv
    have hrest : ∀ a b : ℚ, Reduce.sumGo values rest a b =
        some (a + ((contribs values rest).map Prod.fst).sum,
              b + ((contribs values rest).map Prod.snd).sum) :=
      fun a b => ih a b (fun q hq => h q (List.mem_cons_of_mem _ hq))
    cases v with
    | none =>
      have step : Reduce.sumGo values ((i, w) :: rest) a b =
          Reduce.sumGo values rest a b := by
        simp [Reduce.sumGo, List.get?_eq_getElem?, hv, isnanF]
      rw [step, hrest a b]
      simp [contribs, List.filterMap_cons, List.get?_eq_getElem?, hv]
    | some x =>
      have step : Reduce.sumGo values ((i, w) :: rest) a b =
          Reduce.sumGo values rest (a + x) (b + w) := by
        simp [Reduce.sumGo, List.get?_eq_getElem?, hv, isnanF]
      rw [step, hrest (a + x) (b + w)]
      simp [contribs, List.filterMap_cons, List.get?_eq_getElem?, hv,
        add_assoc]

/-! ## Claim theorems -/

/-- C6: for every registered kernel (mean, harmonic_mean, geometric_mean,
sum, minimum, maximum, mode, median, conductance, max_overlap) and every
nonempty index/weight slice in which every indexed value is the nodata
sentinel, the kernel returns the nodata sentinel. -/
theorem C6_all_nodata (log exp : ℚ → ℚ) (values : List F) (indices : List ℕ)
    (weights : List ℚ) (hne : indices ≠ [])
    (h : ∀ i ∈ indices, values.get? i = some nanF) :
    Reduce.mean values indices weights = some nanF ∧
    Reduce.harmonic_mean values indices weights = some nanF ∧
    Reduce.geometric_mean log exp values indices weights = some nanF ∧
    Reduce.sum values indices weights = some nanF ∧
    Reduce.minimum values indices weights = some nanF ∧
    Reduce.maximum values indices weights = some nanF ∧
    Reduce.mode values indices weights = some nanF ∧
    Reduce.median values indices weights = some nanF ∧
    Reduce.conductance values indices weights = some nanF ∧
    Reduce.max_overlap values indices weights = some nanF := by
  have hz : ∀ p ∈ indices.zip weights, values.get? p.1 = some nanF :=
    fun p hp => h p.1 (zip_fst_mem indices weights p hp)
  refine ⟨?_, ?_, ?_, ?_, ?_, ?_, ?_, ?_, ?_, ?_⟩
  · rw [Reduce.mean, meanGo_nodata values _ 0 0 hz]
    simp
  · rw [Reduce.harmonic_mean, harmonicGo_nodata values _ 0 0 hz]
    simp
  · rw [Reduce.geometric_mean]
    by_cases hn : ((indices.zip weights).map Prod.snd).sum = 0
    · simp [hn]
    · simp only [hn, if_neg, ite_false]
      rw [geoGo_nodata log values _ 0 0 0 hz]
      simp
  · rw [Reduce.sum, sumGo_nodata values _ 0 0 hz]
    simp
  · match indices, hne with
    | i0 :: rest, _ =>
      have h0 : values.get? i0 = some nanF := h i0 (List.mem_cons_self _ _)
      rw [Reduce.minimum]
      simp only [h0]
      exact minimumGo_nodata values (i0 :: rest) nanF h
  · match indices, hne with
    | i0 :: rest, _ =>
      have h0 : values.get? i0 = some nanF := h i0 (List.mem_cons_self _ _)
      rw [Reduce.maximum]
      simp only [h0]
      exact maximumGo_nodata values (i0 :: rest) nanF h
  · obtain ⟨lv2, hloop⟩ :=
      modeLoop_nodata values (indices.zip weights) 0 0 weights nanF hz
    rw [Reduce.mode, Reduce.modeFull, hloop]
    simp
  · obtain ⟨vs, hvs, hall⟩ := gather_nodata values indices h
    rw [Reduce.median, hvs]
    simp only [Reduce.nanpercentile50, filterMap_id_nodata vs hall]
    simp [Reduce.sortQ]
  · rw [Reduce.conductance, conductanceGo_nodata values _ 0 0 hz]
    simp
  · exact maxOverlapGo_nodata values (indices.zip weights) 0 nanF hz

/-- Witness for C6 at `values = [NaN]`, `indices = [0]`, `weights = [1]`,
with the identity interpreting `log` and `exp`. -/
theorem C6_all_nodata_witness :
    Reduce.mean [nanF] [0] [1] = some nanF ∧
    Reduce.harmonic_mean [nanF] [0] [1] = some nanF ∧
    Reduce.geometric_mean id id [nanF] [0] [1] = some nanF ∧
    Reduce.sum [nanF] [0] [1] = some nanF ∧
    Reduce.minimum [nanF] [0] [1] = some nanF ∧
    Reduce.maximum [nanF] [0] [1] = some nanF ∧
    Reduce.mode [nanF] [0] [1] = some nanF ∧
    Reduce.median [nanF] [0] [1] = some nanF ∧
    Reduce.conductance [nanF] [0] [1] = some nanF ∧
    Reduce.max_overlap [nanF] [0] [1] = some nanF :=
  C6_all_nodata id id [nanF] [0] [1] (by simp) (by decide)

/-- C1 (amended): when `values[indices[0]]` is nodata the seed is never
overwritten — every comparison against the NaN running minimum is false —
so `minimum` returns the nodata sentinel regardless of later valid
values. -/
theorem C1_min_nan_seed (values : List F) (indices : List ℕ)
    (weights : List ℚ) (i0 : ℕ) (h0 : indices.head? = some i0)
    (hnan : values.get? i0 = some nanF)
    (hvalid : ∀ i ∈ indices, (values.get? i).isSome) :
    Reduce.minimum values indices weights = some nanF := by
  match indices, h0, hvalid with
  | i :: rest, h0, hvalid =>
    have hi : i = i0 := by simpa using h0
    subst hi
    rw [Reduce.minimum]
    simp only [hnan]
    exact minimumGo_nan_seed values (i :: rest) hvalid

/-- Witness for C1 at the spec's own example input. -/
theorem C1_min_nan_seed_witness :
    Reduce.minimum [nanF, some 3, some 1] [0, 1, 2] [1, 1, 1] = some nanF :=
  C1_min_nan_seed [nanF, some 3, some 1] [0, 1, 2] [1, 1, 1] 0 rfl rfl
    (by decide)

/-- C1 counterexample: `minimum(values=[NaN,3,1], indices=[0,1,2],
weights=[1,1,1])` returns NaN, not `1` as the claim states. -/
theorem C1_counterexample :
    Reduce.minimum [nanF, some 3, some 1] [0, 1, 2] [1, 1, 1] = some nanF ∧
    Reduce.minimum [nanF, some 3, some 1] [0, 1, 2] [1, 1, 1] ≠
      some (some 1) := by
  decide

/-- C2 (code bug): at `values=[5,7]`, `indices=[1,1]`, `weights=[1,1]` the
mode kernel merges nothing (it compares `values[j]`, not
`values[indices[j]]`) and returns `values[0] = 5`, a value that is never
indexed, instead of the weight-2 value `7` the claim (and the code's own
comment) requires. -/
theorem C2_mode_failing_input :
    Reduce.modeFull [some 5, some 7] [1, 1] [1, 1] =
      some (some 5, [1, 1]) ∧
    Reduce.mode [some 5, some 7] [1, 1] [1, 1] ≠ some (some 7) := by
  constructor
  · norm_num [Reduce.modeFull, Reduce.modeLoop, Reduce.mergeScan,
      Reduce.modeSelect, isnanF, nanF, eqF]
  · norm_num [Reduce.mode, Reduce.modeFull, Reduce.modeLoop,
      Reduce.mergeScan, Reduce.modeSelect, isnanF, nanF, eqF]

/-- C4 (amended): every kernel except `minimum` and `maximum` completes on
an empty indices slice and returns the nodata sentinel; `minimum` and
`maximum` raise an index error on an empty indices sequence, and on a
nonempty all-nodata slice they complete and return the nodata sentinel. -/
theorem C4_degenerate (log exp : ℚ → ℚ) (values values2 : List F)
    (weights weights2 : List ℚ) (indices2 : List ℕ) (hne : indices2 ≠ [])
    (h2 : ∀ i ∈ indices2, values2.get? i = some nanF) :
    Reduce.mean values [] weights = some nanF ∧
    Reduce.harmonic_mean values [] weights = some nanF ∧
    Reduce.geometric_mean log exp values [] weights = some nanF ∧
    Reduce.sum values [] weights = some nanF ∧
    Reduce.mode values [] weights = some nanF ∧
    Reduce.median values [] weights = some nanF ∧
    Reduce.conductance values [] weights = some nanF ∧
    Reduce.max_overlap values [] weights = some nanF ∧
    Reduce.minimum values [] weights = none ∧
    Reduce.maximum values [] weights = none ∧
    Reduce.minimum values2 indices2 weights2 = some nanF ∧
    Reduce.maximum values2 indices2 weights2 = some nanF :=
  ⟨rfl, rfl, rfl, rfl, rfl, rfl, rfl, rfl, rfl, rfl,
    minimum_all_nodata values2 indices2 weights2 hne h2,
    maximum_all_nodata values2 indices2 weights2 hne h2⟩

/-- Witness for C4 at concrete buffers. -/
theorem C4_degenerate_witness :
    Reduce.mean [some 1] [] [1] = some nanF ∧
    Reduce.harmonic_mean [some 1] [] [1] = some nanF ∧
    Reduce.geometric_mean id id [some 1] [] [1] = some nanF ∧
    Reduce.sum [some 1] [] [1] = some nanF ∧
    Reduce.mode [some 1] [] [1] = some nanF ∧
    Reduce.median [some 1] [] [1] = some nanF ∧
    Reduce.conductance [some 1] [] [1] = some nanF ∧
    Reduce.max_overlap [some 1] [] [1] = some nanF ∧
    Reduce.minimum [some 1] [] [1] = none ∧
    Reduce.maximum [some 1] [] [1] = none ∧
    Reduce.minimum [nanF] [0] [1] = some nanF ∧
    Reduce.maximum [nanF] [0] [1] = some nanF :=
  C4_degenerate id id [some 1] [nanF] [1] [1] [0] (by simp) (by decide)

/-- C4 counterexample: `minimum([1], [], [])` raises (modelled as `none`)
instead of completing with the nodata sentinel as the claim states. -/
theorem C4_counterexample :
    Reduce.minimum [some 1] [] [] = none ∧
    Reduce.minimum [some 1] [] [] ≠ some nanF := by
  decide

/-- C5 (amended): for every unregistered string the resolver fails with a
`ValueError` whose message enumerates all registered method names; the
message is one fixed string, independent of the requested name, so it does
not name the requested string. -/
theorem C5_unknown_method (s : String) (rel : Bool)
    (h : lookupEntry s OVERLAP_METHODS = none) :
    get_method (MethodArg.str s) OVERLAP_METHODS rel =
      Except.error (RError.valueError
        (invalidMethodMsg (OVERLAP_METHODS.map Prod.fst))) ∧
    (∀ n ∈ OVERLAP_METHODS.map Prod.fst,
      containsSub n.toList
        (invalidMethodMsg (OVERLAP_METHODS.map Prod.fst)).toList = true) := by
  refine ⟨?_, by decide⟩
  simp [get_method, h]

/-- Witness for C5 at the unregistered name `"nonexistent"`. -/
theorem C5_unknown_method_witness :
    get_method (MethodArg.str "nonexistent") OVERLAP_METHODS false =
      Except.error (RError.valueError
        (invalidMethodMsg (OVERLAP_METHODS.map Prod.fst))) :=
  (C5_unknown_method "nonexistent" false (by decide)).1

/-- C5 counterexample: the error message for the unknown name
`"nonexistent"` does not contain the requested string. -/
theorem C5_counterexample :
    get_method (MethodArg.str "nonexistent") OVERLAP_METHODS false =
      Except.error (RError.valueError
        (invalidMethodMsg (OVERLAP_METHODS.map Prod.fst))) ∧
    containsSub "nonexistent".toList
      (invalidMethodMsg (OVERLAP_METHODS.map Prod.fst)).toList = false := by
  exact ⟨rfl, by decide⟩

/-- C7: the bar `max_w` is raised before the nodata check, so a nodata
entry whose weight exceeds the bar and dominates all later weights blocks
every later valid value; at the spec's example the result is `10`,
not `5`. -/
theorem C7_nodata_raises_bar (values : List F) (rest : List (ℕ × ℚ))
    (mw w : ℚ) (v : F) (i : ℕ) (hw : mw < w)
    (hnan : values.get? i = some nanF) (hrest : ∀ p ∈ rest, p.2 ≤ w) :
    Reduce.maxOverlapGo values ((i, w) :: rest) mw v = some v ∧
    Reduce.max_overlap [some 10, nanF, some 5] [0, 1, 2]
      [1/2, 9/10, 3/10] = some (some 10) ∧
    Reduce.max_overlap [some 10, nanF, some 5] [0, 1, 2]
      [1/2, 9/10, 3/10] ≠ some (some 5) := by
  refine ⟨?_, ?_, ?_⟩
  · simp only [Reduce.maxOverlapGo, hnan]
    rw [if_pos hw]
    simp only [nanF, isnanF]
    exact maxOverlapGo_stuck values rest w v hrest
  · norm_num [Reduce.max_overlap, Reduce.maxOverlapGo, isnanF, nanF]
  · norm_num [Reduce.max_overlap, Reduce.maxOverlapGo, isnanF, nanF]

/-- Witness for C7: the blocking step at the spec example's tail. -/
theorem C7_nodata_raises_bar_witness :
    Reduce.maxOverlapGo [some 10, nanF, some 5] [(1, 9/10), (2, 3/10)]
      (1/2) (some 10) = some (some 10) :=
  (C7_nodata_raises_bar [some 10, nanF, some 5] [(2, 3/10)] (1/2) (9/10)
    (some 10) 1 (by norm_num) rfl (by norm_num)).1

/-- C8: `sum` agrees with its specification: the unweighted total of the
non-nodata indexed values, nodata exactly when the weight total
accumulated over the same contributing entries is zero; in particular
`sum([1,2,NaN], [0,1,2], [5,5,5]) = 3`. -/
theorem C8_sum_unweighted (values : List F) (indices : List ℕ)
    (weights : List ℚ) (h : ∀ i ∈ indices, (values.get? i).isSome) :
    Reduce.sum values indices weights =
      some (sumSpec values indices weights) ∧
    Reduce.sum [some 1, some 2, nanF] [0, 1, 2] [5, 5, 5] =
      some (some 3) := by
  constructor
  · have hz : ∀ p ∈ indices.zip weights, (values.get? p.1).isSome :=
      fun p hp => h p.1 (zip_fst_mem indices weights p hp)
    rw [Reduce.sum, sumGo_spec values (indices.zip weights) 0 0 hz]
    simp [sumSpec]
  · norm_num [Reduce.sum, Reduce.sumGo, isnanF, nanF]

/-- Witness for C8 at the spec's example input. -/
theorem C8_sum_unweighted_witness :
    Reduce.sum [some 1, some 2, nanF] [0, 1, 2] [5, 5, 5] =
      some (sumSpec [some 1, some 2, nanF] [0, 1, 2] [5, 5, 5]) :=
  (C8_sum_unweighted [some 1, some 2, nanF] [0, 1, 2] [5, 5, 5]
    (by decide)).1

/-- C9: every kernel leaves `values` and `indices` unchanged, and every
kernel except `mode` leaves `weights` unchanged as well; `mode` really
does use its weights buffer as scratch (it changes `[1,1]` to `[2,1]` when
merging two equal values). -/
theorem C9_no_mutation (log exp : ℚ → ℚ) (s : KState) :
    (meanK s).2 = s ∧ (harmonicMeanK s).2 = s ∧
    (geometricMeanK log exp s).2 = s ∧ (sumK s).2 = s ∧
    (minimumK s).2 = s ∧ (maximumK s).2 = s ∧ (medianK s).2 = s ∧
    (conductanceK s).2 = s ∧ (maxOverlapK s).2 = s ∧
    (modeK s).2.values = s.values ∧ (modeK s).2.indices = s.indices ∧
    (modeK ⟨[some 1, some 1], [0, 1], [1, 1]⟩).2.weights ≠ [1, 1] := by
  refine ⟨rfl, rfl, rfl, rfl, rfl, rfl, rfl, rfl, rfl, ?_, ?_, ?_⟩
  · rcases hm : Reduce.modeFull s.values s.indices s.weights with _ | ⟨v, ws⟩ <;>
      simp [modeK, hm]
  · rcases hm : Reduce.modeFull s.values s.indices s.weights with _ | ⟨v, ws⟩ <;>
      simp [modeK, hm]
  · have hev : (modeK ⟨[some 1, some 1], [0, 1], [1, 1]⟩).2.weights =
        [2, 1] := by
      norm_num [modeK, Reduce.modeFull, Reduce.modeLoop, Reduce.mergeScan,
        Reduce.modeSelect, isnanF, nanF, eqF]
    rw [hev]
    norm_num

/-- C10: when no weight is strictly positive, `max_overlap` never adopts a
value (the bar starts at `0` and `w > max_w` never fires) and returns the
nodata sentinel even if every indexed value is valid. -/
theorem C10_max_overlap_nonpositive (values : List F) (indices : List ℕ)
    (weights : List ℚ) (h : ∀ w ∈ weights, w ≤ 0) :
    Reduce.max_overlap values indices weights = some nanF := by
  rw [Reduce.max_overlap]
  exact maxOverlapGo_stuck values (indices.zip weights) 0 nanF
    (fun p hp => h p.2 (List.of_mem_zip hp).2)

/-- Witness for C10 at a valid value with zero weight. -/
theorem C10_max_overlap_nonpositive_witness :
    Reduce.max_overlap [some 10] [0] [0] = some nanF :=
  C10_max_overlap_nonpositive [some 10] [0] [0] (by decide)

/-- The default last element of a nonempty list is a member. -/
theorem getLastD_mem : ∀ (l : List ℕ), l ≠ [] → l.getLastD 0 ∈ l := by
  intro l
  induction l with
  | nil => intro h; exact absurd rfl h
  | cons a t ih =>
    intro _
    cases t with
    | nil => simp [List.getLastD]
    | cons b t2 =>
      have hstep : (a :: b :: t2).getLastD 0 = (b :: t2).getLastD 0 := rfl
      rw [hstep]
      exact List.mem_cons_of_mem a (ih (by simp))

/-- Over an all-nodata slice the mode loop's variable ends at NaN. -/
theorem lastIndexed_nodata (values : List F) :
    ∀ (pairs : List (ℕ × ℚ)) (lv : F), pairs ≠ [] →
    (∀ p ∈ pairs, values.get? p.1 = some nanF) →
    lastIndexed values lv pairs = nanF := by
  intro pairs
  induction pairs with
  | nil => intro lv h _; exact absurd rfl h
  | cons p rest ih =>
    intro lv _ h
    obtain ⟨i, w⟩ := p
    have hi := h (i, w) (List.mem_cons_self _ _)
    have hi2 : values[i]? = some nanF := by
      simpa [List.get?_eq_getElem?] using hi
    have hstep : lastIndexed values lv ((i, w) :: rest) =
        lastIndexed values nanF rest := by
      simp [lastIndexed, hi, hi2]
    rw [hstep]
    cases rest with
    | nil => rfl
    | cons q t =>
      exact ih nanF (by simp) (fun r hr => h r (List.mem_cons_of_mem _ hr))

/-- The mode loop's final variable is the value at the last index of the
slice (when index and weight sequences have equal length). -/
theorem lastIndexed_getLastD (values : List F) :
    ∀ (indices : List ℕ) (weights : List ℚ) (lv : F), indices ≠ [] →
    weights.length = indices.length →
    lastIndexed values lv (indices.zip weights) =
      (values.get? (indices.getLastD 0)).getD nanF := by
  intro indices
  induction indices with
  | nil => intro weights lv h _; exact absurd rfl h
  | cons i t ih =>
    intro weights lv _ hlen
    cases weights with
    | nil => simp at hlen
    | cons w ws =>
      have hlen2 : ws.length = t.length := by simpa using hlen
      cases t with
      | nil =>
        have hws : ws = [] := List.length_eq_zero.mp (by simpa using hlen2)
        subst hws
        simp [lastIndexed, List.getLastD]
      | cons j t2 =>
        cases ws with
        | nil => simp at hlen2
        | cons w2 ws2 =>
          have hz : (i :: j :: t2).zip (w :: w2 :: ws2) =
              (i, w) :: ((j :: t2).zip (w2 :: ws2)) := rfl
          rw [hz]
          have hstep : lastIndexed values lv
                ((i, w) :: ((j :: t2).zip (w2 :: ws2))) =
              lastIndexed values ((values.get? i).getD nanF)
                ((j :: t2).zip (w2 :: ws2)) := rfl
          rw [hstep]
          have hgl : (i :: j :: t2).getLastD 0 = (j :: t2).getLastD 0 := rfl
          rw [hgl]
          exact ih (w2 :: ws2) _ (by simp) hlen2

/-- The final scan of `mode` over an all-zero weights buffer adopts
nothing: the strict comparison `w > 0` never fires. -/
theorem modeSelect_zero (values : List F) (ws : List ℚ)
    (hz : ∀ x ∈ ws, x = 0) : ∀ (n i : ℕ) (v : F), i + n ≤ ws.length →
    Reduce.modeSelect values ws n i 0 v = some v := by
  intro n
  induction n with
  | zero => intro i v _; rfl
  | succ n ih =>
    intro i v hlen
    have hi : i < ws.length := by omega
    have hwsi : ws.get? i = some (ws.get ⟨i, hi⟩) := List.get?_eq_get hi
    have hx0 : ws.get ⟨i, hi⟩ = 0 := hz _ (List.get_mem ws i hi)
    simp only [Reduce.modeSelect, hwsi, hx0]
    rw [if_neg (lt_irrefl (0 : ℚ))]
    exact ih (i + 1) v (by omega)

/-- The inner scan of `mode` completes without an IndexError whenever some
position at or beyond its cursor, inside `values`, matches the probe value
(the scan stops at or before it); with a zero write weight it keeps an
all-zero buffer all-zero, and it preserves the buffer length. -/
theorem mergeScan_ok (values : List F) (v : F) (w : ℚ) :
    ∀ (k j : ℕ) (ws : List ℚ) (t : ℕ), j ≤ t → t < values.length →
    eqF ((values.get? t).getD nanF) v = true → j + k ≤ ws.length →
    ∃ ws2, Reduce.mergeScan values v w k j ws = some ws2 ∧
      ws2.length = ws.length ∧
      (w = 0 → (∀ x ∈ ws, x = 0) → ∀ x ∈ ws2, x = 0) := by
  intro k
  induction k with
  | zero =>
    intro j ws t _ _ _ _
    exact ⟨ws, rfl, rfl, fun _ h => h⟩
  | succ k ih =>
    intro j ws t hjt ht hmatch hlen
    have hjv : j < values.length := lt_of_le_of_lt hjt ht
    have hvj : values.get? j = some (values.get ⟨j, hjv⟩) :=
      List.get?_eq_get hjv
    by_cases heq : eqF (values.get ⟨j, hjv⟩) v = true
    · have hjw : j < ws.length := by omega
      have hwj : ws.get? j = some (ws.get ⟨j, hjw⟩) := List.get?_eq_get hjw
      have hvj2 : values[j]? = some (values.get ⟨j, hjv⟩) := by
        simpa [List.get?_eq_getElem?] using hvj
      have hwj2 : ws[j]? = some (ws.get ⟨j, hjw⟩) := by
        simpa [List.get?_eq_getElem?] using hwj
      have heq2 : eqF values[j] v = true := by
        simpa [List.get_eq_getElem] using heq
      refine ⟨ws.set j (ws.get ⟨j, hjw⟩ + w), ?_, List.length_set ws _ _, ?_⟩
      · simp [Reduce.mergeScan, hvj, hvj2, heq, heq2, hwj, hwj2]
      · intro hw0 hall x hx
        rcases List.mem_or_eq_of_mem_set hx with hmem | hval
        · exact hall x hmem
        · rw [hval, hall _ (List.get_mem ws j hjw), hw0, add_zero]
    · have heqf : eqF (values.get ⟨j, hjv⟩) v = false := by
        cases h2 : eqF (values.get ⟨j, hjv⟩) v
        · rfl
        · exact absurd h2 heq
      have hne : j ≠ t := by
        intro hj
        subst hj
        rw [hvj] at hmatch
        simp only [Option.getD_some] at hmatch
        exact heq hmatch
      obtain ⟨ws2, hm, hl, hz⟩ := ih (j + 1) ws t (by omega) ht hmatch
        (by omega)
      refine ⟨ws2, ?_, hl, hz⟩
      simp only [Reduce.mergeScan, hvj, heqf]
      simpa using hm

/-- The mode loop over an all-zero-weight, valid-index slice: it completes,
keeps the buffer all-zero and of unchanged length, never decreases the
found-count, leaves the count unchanged only if every indexed value was
nodata, and ends with the loop variable at the last indexed value. -/
theorem modeLoop_zero (values : List F) :
    ∀ (pairs : List (ℕ × ℚ)) (k n : ℕ) (ws : List ℚ) (lv : F),
    (∀ p ∈ pairs, (values.get? p.1).isSome) →
    (∀ p ∈ pairs, p.2 = 0) →
    (∀ x ∈ ws, x = 0) →
    k + pairs.length ≤ ws.length →
    ∃ n2 ws2, Reduce.modeLoop values pairs k n ws lv =
        some (n2, ws2, lastIndexed values lv pairs) ∧
      (∀ x ∈ ws2, x = 0) ∧ ws2.length = ws.length ∧ n ≤ n2 ∧
      (n2 = n → ∀ p ∈ pairs, values.get? p.1 = some nanF) := by
  intro pairs
  induction pairs with
  | nil =>
    intro k n ws lv _ _ hz _
    exact ⟨n, ws, rfl, hz, rfl, le_refl n,
      fun _ p hp => absurd hp (List.not_mem_nil p)⟩
  | cons p rest ih =>
    intro k n ws lv hvalid hw0 hz hlen
    obtain ⟨i, w⟩ := p
    obtain ⟨v, hv⟩ :=
      Option.isSome_iff_exists.mp (hvalid (i, w) (List.mem_cons_self _ _))
    have hw : w = 0 := hw0 (i, w) (List.mem_cons_self _ _)
    have hvr : ∀ q ∈ rest, (values.get? q.1).isSome :=
      fun q hq => hvalid q (List.mem_cons_of_mem _ hq)
    have hwr : ∀ q ∈ rest, q.2 = 0 :=
      fun q hq => hw0 q (List.mem_cons_of_mem _ hq)
    have hlen2 : k + 1 + rest.length ≤ ws.length := by
      simp only [List.length_cons] at hlen
      omega
    have hv2 : values[(i, w).1]? = values.get? (i, w).1 := by
      simp [List.get?_eq_getElem?]
    rw [hv] at hv2
    cases v with
    | none =>
      obtain ⟨n2, ws2, heq, hz2, hl2, hmono, hnone⟩ :=
        ih (k + 1) n ws nanF hvr hwr hz hlen2
      refine ⟨n2, ws2, ?_, hz2, hl2, hmono, ?_⟩
      · have hli : lastIndexed values lv ((i, w) :: rest) =
            lastIndexed values nanF rest := by
          simp [lastIndexed, hv, hv2, nanF]
        rw [hli]
        simp only [Reduce.modeLoop, hv, isnanF]
        exact heq
      · intro hn2 q hq
        rcases List.mem_cons.mp hq with h1 | h2
        · rw [h1]
          exact hv
        · exact hnone hn2 q h2
    | some x =>
      have hiv : i < values.length := (List.get?_eq_some.mp hv).1
      have hmatch : eqF ((values.get? i).getD nanF) (some x) = true := by
        rw [hv]
        simp [eqF]
      obtain ⟨wsA, hms, hlA, hzA⟩ := mergeScan_ok values (some x) w k 0 ws i
        (Nat.zero_le i) hiv hmatch (by omega)
      obtain ⟨n2, ws2, heq, hz2, hl2, hmono, _⟩ :=
        ih (k + 1) (n + 1) wsA (some x) hvr hwr (hzA hw hz)
          (by rw [hlA]; exact hlen2)
      refine ⟨n2, ws2, ?_, hz2, by rw [hl2, hlA], by omega, ?_⟩
      · have hli : lastIndexed values lv ((i, w) :: rest) =
            lastIndexed values (some x) rest := by
          simp [lastIndexed, hv, hv2]
        rw [hli]
        simp only [Reduce.modeLoop, hv, isnanF, hms]
        exact heq
      · intro hn2
        omega

/-- C3 (amended): on a nonempty slice in which all weights are zero the
mode kernel returns the value at the last index, `values[indices[-1]]`
(the stale loop variable; no accumulated weight ever exceeds the strict
zero bar of the final scan).  This equals the nodata sentinel only when
the last indexed value is nodata, not in general. -/
theorem C3_mode_zero_weights (values : List F) (indices : List ℕ)
    (weights : List ℚ) (hne : indices ≠ [])
    (hlen : weights.length = indices.length)
    (hw0 : ∀ w ∈ weights, w = 0)
    (hvalid : ∀ i ∈ indices, (values.get? i).isSome) :
    Reduce.mode values indices weights =
      values.get? (indices.getLastD 0) := by
  have hvz : ∀ p ∈ indices.zip weights, (values.get? p.1).isSome :=
    fun p hp => hvalid p.1 (List.of_mem_zip hp).1
  have hwz : ∀ p ∈ indices.zip weights, p.2 = 0 :=
    fun p hp => hw0 p.2 (List.of_mem_zip hp).2
  have hzl : (indices.zip weights).length = indices.length := by
    rw [List.length_zip, hlen, min_self]
  obtain ⟨n2, ws2, heq, hz2, hl2, _, hnone⟩ :=
    modeLoop_zero values (indices.zip weights) 0 0 weights nanF hvz hwz hw0
      (by rw [hzl, ← hlen]; omega)
  have hmem : indices.getLastD 0 ∈ indices := getLastD_mem indices hne
  obtain ⟨xl, hxl⟩ := Option.isSome_iff_exists.mp (hvalid _ hmem)
  have hLI : lastIndexed values nanF (indices.zip weights) =
      (values.get? (indices.getLastD 0)).getD nanF :=
    lastIndexed_getLastD values indices weights nanF hne hlen
  rw [Reduce.mode, Reduce.modeFull, heq]
  by_cases hn : n2 = 0
  · have hall := hnone hn
    have hzne : indices.zip weights ≠ [] := by
      intro habs
      have hl0 := congrArg List.length habs
      rw [hzl] at hl0
      exact hne (List.length_eq_zero.mp hl0)
    have hLnan : lastIndexed values nanF (indices.zip weights) = nanF :=
      lastIndexed_nodata values _ nanF hzne hall
    rw [hxl] at hLI
    rw [hLnan] at hLI
    have hxn : xl = nanF := by simpa using hLI.symm
    rw [hxl, hxn]
    simp [hn, nanF]
  · have hsel : Reduce.modeSelect values ws2 indices.length 0 0
        (lastIndexed values nanF (indices.zip weights)) =
        some (lastIndexed values nanF (indices.zip weights)) :=
      modeSelect_zero values ws2 hz2 indices.length 0 _
        (by rw [hl2, hlen]; omega)
    rw [hxl] at hLI
    simp only [Option.getD_some] at hLI
    rw [hLI] at hsel
    have hxl2 : values[indices.getLastD 0]? = some xl := by
      simpa [List.get?_eq_getElem?] using hxl
    rw [List.getLastD_eq_getLast?] at hxl2
    simp [hn, hLI, hsel, hxl2]

/-- Witness for C3: all-zero weights with one valid value. -/
theorem C3_mode_zero_weights_witness :
    Reduce.mode [some 3] [0] [0] =
      ([some 3] : List F).get? (([0] : List ℕ).getLastD 0) :=
  C3_mode_zero_weights [some 3] [0] [0] (by simp) rfl (by decide) (by decide)

/-- C3 counterexample: `mode(values=[3], indices=[0], weights=[0])`
returns `3`, not the nodata sentinel the claim requires. -/
theorem C3_counterexample :
    Reduce.mode [some 3] [0] [0] = some (some 3) ∧
    Reduce.mode [some 3] [0] [0] ≠ some nanF := by
  decide
